import Mathlib

/-!
# Azure AD tables: filter translation and row streaming

A shallow embedding of `azuread/table_azuread_user.go` and
`azuread/table_azuread_directory_role.go`.  Go maps are association lists read
with `List.lookup`, Go slices are lists, `nil` pointers are `none`, and the
side effects of a hydrate function (remote calls, rows handed to the host) are
recorded in an explicit event log threaded through the function.
-/

namespace azuread

/-! ## Qualifier values (`proto.QualValue`) -/

/-- The `proto.QualValue` one-of, with the kinds a key column qualifier can carry. -/
inductive QualValue where
  | StringValue (s : String)
  | BoolValue (b : Bool)
  | Int64Value (i : Int)
  | Other
  deriving DecidableEq, Repr

/-- The getter `GetStringValue`: the string of a string value, the zero value otherwise. -/
def QualValue.GetStringValue : QualValue → String
  | .StringValue s => s
  | _ => ""

/-- The getter `GetBoolValue`: the boolean of a bool value, the zero value otherwise. -/
def QualValue.GetBoolValue : QualValue → Bool
  | .BoolValue b => b
  | _ => false

/-- A single qualifier `quals.Qual`: column, operator and value. -/
structure Qual where
  Column : String
  Operator : String
  Value : QualValue
  deriving DecidableEq, Repr

/-- The qualifiers of one key column, `plugin.KeyColumnQuals`. -/
structure KeyColumnQuals where
  Name : String
  Quals : List Qual
  deriving DecidableEq, Repr

/-- The parts of `plugin.QueryData` read by the list functions: the requested
columns (`d.QueryContext.Columns`), the equality qualifier map
(`d.KeyColumnQuals`) and the full qualifier map (`d.Quals`). -/
structure QueryData where
  Columns : List String
  Quals : List (String × KeyColumnQuals)
  KeyColumnQuals : List (String × QualValue)
  deriving Repr

/-! ## The remote query (`odata.Query`) -/

/-- The expansion `odata.Expand`. -/
structure Expand where
  Relationship : String
  Select : List String
  deriving DecidableEq, Repr

/-- The fields of `odata.Query` that `listAdUsers` sets; every other field
keeps its zero value. -/
structure Query where
  Expand : Expand
  Filter : String
  deriving DecidableEq, Repr

/-! ## String helpers -/

/-- Go `strings.Join`. -/
def stringsJoin (elems : List String) (sep : String) : String :=
  sep.intercalate elems

/-- Splits a character list at every underscore. -/
def splitUnderscore : List Char → List (List Char)
  | [] => [[]]
  | c :: cs =>
    match splitUnderscore cs with
    | [] => if c = '_' then [[], []] else [[c]]
    | w :: ws => if c = '_' then [] :: w :: ws else (c :: w) :: ws

/-- A word with its first letter in upper case and the rest in lower case. -/
def titleWord : List Char → List Char
  | [] => []
  | c :: cs => c.toUpper :: cs.map Char.toLower

/-- The library function `strcase.ToCamel`, which is not part of the sources,
on identifiers made of words separated by underscores: the first word in lower
case, every later word capitalised, the underscores dropped. -/
def ToCamel (s : String) : String :=
  match (splitUnderscore s.toList).filter (fun w => !w.isEmpty) with
  | [] => ""
  | w :: ws => String.mk (w.map Char.toLower ++ (ws.map titleWord).flatten)

/-- Go `fmt.Sprintf("%t", b)`. -/
def fmtBool (b : Bool) : String := if b then "true" else "false"

/-! ## `buildQueryFilter` and the query built by `listAdUsers` -/

/-- The slice `filterQuals` of `buildQueryFilter`. -/
def filterQuals : List String :=
  ["user_principal_name", "user_type", "id", "display_name", "surname"]

/-- The function `buildQueryFilter`: the `accountEnabled` equality clause first,
then one quoted equality clause per column of `filterQuals` present in the map. -/
def buildQueryFilter (equalQuals : List (String × QualValue)) : List String :=
  let filters : List String := []
  let filters :=
    match equalQuals.lookup "account_enabled" with
    | some v => filters ++ ["accountEnabled" ++ " eq " ++ fmtBool v.GetBoolValue]
    | none => filters
  filterQuals.foldl
    (fun filters qual =>
      match equalQuals.lookup qual with
      | some v => filters ++ [ToCamel qual ++ " eq '" ++ v.GetStringValue ++ "'"]
      | none => filters)
    filters

/-- The loop of `listAdUsers` over `quals["account_enabled"].Quals`: the first
qualifier with operator `<>` appends the negated equality clause and the loop
breaks. -/
def appendAccountEnabledNe (filter : List String) : List Qual → List String
  | [] => filter
  | q :: rest =>
    if q.Operator = "<>" then
      if q.Value.GetBoolValue then filter ++ ["accountEnabled eq false"]
      else filter ++ ["accountEnabled eq true"]
    else appendAccountEnabledNe filter rest

/-- The slice `filter` of `listAdUsers` just before the filter string is chosen. -/
def listAdUsersClauses (d : QueryData) : List String :=
  let filter := buildQueryFilter d.KeyColumnQuals
  match d.Quals.lookup "account_enabled" with
  | some kq => appendAccountEnabledNe filter kq.Quals
  | none => filter

/-- The value `input` that `listAdUsers` passes to `client.List`. -/
def listAdUsersInput (d : QueryData) : Query :=
  let expand : Expand :=
    if d.Columns.contains "member_of" then
      { Relationship := "memberOf", Select := ["id", "displayName"] }
    else
      { Relationship := "", Select := [] }
  let filter := listAdUsersClauses d
  let queryFilter : String :=
    match d.KeyColumnQuals.lookup "filter" with
    | some v => v.GetStringValue
    | none => ""
  let inputFilter : String :=
    if queryFilter ≠ "" then queryFilter
    else if filter.length > 0 then stringsJoin filter " and "
    else ""
  { Expand := expand, Filter := inputFilter }

/-! ## Hydrate results, the row sink and the row budget -/

/-- The pair `(interface{}, error)` returned by a hydrate function, with the
run-time failure of indexing an empty slice as a fourth outcome. -/
inductive HydrateResult (ρ : Type) where
  | item (r : ρ)
  | nil
  | error (err : String)
  | indexOutOfRange
  deriving DecidableEq, Repr

/-- An observable effect of a hydrate function: a request sent to the remote
list endpoint, or a row handed to the host by `d.StreamListItem`. -/
inductive Event (κ ρ : Type) where
  | fetch (request : κ)
  | row (r : ρ)
  deriving DecidableEq, Repr

/-- The mutable part of `plugin.QueryData` during one scan: the remaining row
budget and the effects so far, oldest first. -/
structure Scan (κ ρ : Type) where
  rowsRemaining : Int
  log : List (Event κ ρ)
  deriving DecidableEq, Repr

/-- A fresh scan with row budget `budget`. -/
def Scan.start {κ ρ : Type} (budget : Int) : Scan κ ρ :=
  { rowsRemaining := budget, log := [] }

/-- Records a request to the remote endpoint. -/
def Scan.request {κ ρ : Type} (st : Scan κ ρ) (q : κ) : Scan κ ρ :=
  { st with log := st.log ++ [Event.fetch q] }

/-- Modelled from the spec: the host call `d.StreamListItem`, which is not part
of the sources.  The row is handed to the Row Sink and the Row Budget is
"decremented conceptually each time a row is emitted". -/
def StreamListItem {κ ρ : Type} (st : Scan κ ρ) (r : ρ) : Scan κ ρ :=
  { rowsRemaining := st.rowsRemaining - 1, log := st.log ++ [Event.row r] }

/-- Modelled from the spec: the host call `d.RowsRemaining`, which is not part
of the sources: the remaining Row Budget.  Cancellation of the context, which
also makes the host report zero, is left out. -/
def RowsRemaining {κ ρ : Type} (st : Scan κ ρ) : Int :=
  st.rowsRemaining

/-- The rows handed to the sink, oldest first. -/
def rowsOf {κ ρ : Type} : List (Event κ ρ) → List ρ
  | [] => []
  | Event.row r :: es => r :: rowsOf es
  | Event.fetch _ :: es => rowsOf es

/-- The requests sent to the remote endpoint, oldest first. -/
def fetchesOf {κ ρ : Type} : List (Event κ ρ) → List κ
  | [] => []
  | Event.row _ :: es => fetchesOf es
  | Event.fetch q :: es => q :: fetchesOf es

/-! ## `listAdUsers` -/

/-- The fields of `msgraph.User` named by the table. -/
structure User where
  ID : Option String
  DisplayName : Option String
  UserPrincipalName : Option String
  deriving DecidableEq, Repr

/-- The users client: `client.List` answers a query with the users or an error. -/
structure UsersClient where
  List : Query → Except String (List User)

/-- The function `listAdUsers`.  `session` is the outcome of `GetNewSession`
together with the client built from it.  The loop over `pagesLeft` runs its
body once, since the body ends with `pagesLeft = false`. -/
def listAdUsers (session : Except String UsersClient) (d : QueryData)
    (st : Scan Query User) : Scan Query User × HydrateResult Unit :=
  match session with
  | .error err => (st, .error err)
  | .ok client =>
    let input := listAdUsersInput d
    let st := st.request input
    match client.List input with
    | .error err => (st, .error err)
    | .ok users => (users.foldl StreamListItem st, .nil)

/-! ## The directory role table -/

/-- The fields of `models.DirectoryRoleable` named by the table. -/
structure DirectoryRole where
  Id : Option String
  Description : Option String
  DisplayName : Option String
  RoleTemplateId : Option String
  deriving DecidableEq, Repr

/-- The row type `ADDirectoryRoleInfo`. -/
structure ADDirectoryRoleInfo where
  DirectoryRoleable : DirectoryRole
  deriving DecidableEq, Repr

/-- The collection response of the directory roles endpoint: the records of
one page (`GetValue`) and the continuation link (`GetOdataNextLink`). -/
structure DirectoryRoleCollectionResponse where
  value : List DirectoryRole
  odataNextLink : Option String
  deriving DecidableEq, Repr

/-- The graph client: `client.DirectoryRoles().Get` takes the `Filter` query
parameter of the request configuration (`none` for a `nil` configuration). -/
structure GraphClient where
  DirectoryRolesGet : Option String → Except String DirectoryRoleCollectionResponse

/-- The loop of `listAdDirectoryRoles` over `result.GetValue()`: each record is
streamed, then the remaining budget is read and the function returns when it
is zero. -/
def streamDirectoryRoles :
    List DirectoryRole → Scan (Option String) ADDirectoryRoleInfo →
      Scan (Option String) ADDirectoryRoleInfo
  | [], st => st
  | directoryRole :: rest, st =>
    let st := StreamListItem st { DirectoryRoleable := directoryRole }
    if RowsRemaining st = 0 then st else streamDirectoryRoles rest st

/-- The function `listAdDirectoryRoles`.  `client` is the outcome of
`GetGraphClient`; `getErrorObject` is the error conversion of the package. -/
def listAdDirectoryRoles (getErrorObject : String → String)
    (client : Except String GraphClient)
    (st : Scan (Option String) ADDirectoryRoleInfo) :
    Scan (Option String) ADDirectoryRoleInfo × HydrateResult Unit :=
  match client with
  | .error err => (st, .error err)
  | .ok client =>
    let st := st.request none
    match client.DirectoryRolesGet none with
    | .error err => (st, .error (getErrorObject err))
    | .ok result => (streamDirectoryRoles result.value st, .nil)

/-- The function `getAdDirectoryRole`; `EqualsQuals` is `d.EqualsQuals`. -/
def getAdDirectoryRole (getErrorObject : String → String)
    (client : Except String GraphClient)
    (EqualsQuals : List (String × QualValue))
    (st : Scan (Option String) ADDirectoryRoleInfo) :
    Scan (Option String) ADDirectoryRoleInfo × HydrateResult ADDirectoryRoleInfo :=
  let directoryRoleId : String :=
    match EqualsQuals.lookup "id" with
    | some v => v.GetStringValue
    | none => ""
  if directoryRoleId = "" then (st, .nil)
  else
    match client with
    | .error err => (st, .error err)
    | .ok client =>
      let st := st.request (some directoryRoleId)
      match client.DirectoryRolesGet (some directoryRoleId) with
      | .error err => (st, .error (getErrorObject err))
      | .ok directoryRoles =>
        match directoryRoles.value with
        | [] => (st, .indexOutOfRange)
        | first :: _ => (st, .item { DirectoryRoleable := first })

/-! ## Predicate sets and their clauses -/

/-- The qualifiers on `account_enabled` held by `d.Quals`, in order; empty when
the map has no entry for the column. -/
def accountEnabledQuals (d : QueryData) : List Qual :=
  match d.Quals.lookup "account_enabled" with
  | some kq => kq.Quals
  | none => []

/-- The column and operator of a predicate. -/
def Qual.slot (p : Qual) : String × String := (p.Column, p.Operator)

/-- The column/operator pairs the user table pushes to the remote filter,
listed in the order in which `buildQueryFilter` and `listAdUsers` append their
clauses. -/
def pushableSlots : List (String × String) :=
  [("account_enabled", "="), ("user_principal_name", "="), ("user_type", "="),
   ("id", "="), ("display_name", "="), ("surname", "="), ("account_enabled", "<>")]

/-- A predicate whose column/operator pair is pushed to the remote filter. -/
def Pushable (p : Qual) : Prop := p.slot ∈ pushableSlots

instance (p : Qual) : Decidable (Pushable p) := by
  unfold Pushable; infer_instance

/-- The clause the specification gives to one pushable predicate: the
camel-cased field, `eq`, and the rendered value; `<>` on the boolean column
becomes `eq` on the negated value. -/
def clauseOf (p : Qual) : String :=
  if p.Column = "account_enabled" then
    if p.Operator = "<>" then "accountEnabled eq " ++ fmtBool (!p.Value.GetBoolValue)
    else "accountEnabled eq " ++ fmtBool p.Value.GetBoolValue
  else ToCamel p.Column ++ " eq '" ++ p.Value.GetStringValue ++ "'"

/-- The filter the specification describes for a predicate list: one clause
per predicate, joined by `" and "`, in the order of the list. -/
def specFilter (ps : List Qual) : String :=
  stringsJoin (ps.map clauseOf) " and "

/-- The query data `d` carries exactly the predicates `ps`: every equality
predicate is in the equality map under its column, every entry of the equality
map is an equality predicate of `ps`, and the qualifiers `d.Quals` holds for
`account_enabled` are the predicates of `ps` on that column, in the order of
`ps`. -/
def Carries (d : QueryData) (ps : List Qual) : Prop :=
  (∀ p ∈ ps, p.Operator = "=" → d.KeyColumnQuals.lookup p.Column = some p.Value) ∧
  (∀ kv ∈ d.KeyColumnQuals, (⟨kv.1, "=", kv.2⟩ : Qual) ∈ ps) ∧
  accountEnabledQuals d = ps.filter (fun p => p.Column = "account_enabled")

instance (d : QueryData) (ps : List Qual) : Decidable (Carries d ps) := by
  unfold Carries; infer_instance

/-- The predicates of `ps` arranged by `pushableSlots`: for each slot in turn,
the first predicate of `ps` with that column and operator, if any. -/
def inSlotOrder (ps : List Qual) : List Qual :=
  pushableSlots.filterMap (fun s => ps.find? (fun p => p.slot = s))

/-! ## Sample inputs -/

/-- A raw filter together with derived predicates. -/
def sampleRawFilter : QueryData :=
  { Columns := ["id", "display_name"]
    Quals := [("account_enabled", ⟨"account_enabled", [⟨"account_enabled", "<>", .BoolValue true⟩]⟩)]
    KeyColumnQuals := [("filter", .StringValue "startswith(displayName,'A')"),
                       ("display_name", .StringValue "Alice")] }

/-- An empty raw filter together with one derived predicate. -/
def sampleEmptyRawFilter : QueryData :=
  { Columns := ["id"]
    Quals := []
    KeyColumnQuals := [("filter", .StringValue ""), ("display_name", .StringValue "Alice")] }

/-- The qualifier `account_enabled <> b`. -/
def accountEnabledNe (b : Bool) : Qual := ⟨"account_enabled", "<>", .BoolValue b⟩

/-- Two `<>` predicates on `account_enabled`: `<> false` first, then `<> true`. -/
def sampleTwoNe : QueryData :=
  { Columns := ["id"]
    Quals := [("account_enabled",
      ⟨"account_enabled", [accountEnabledNe false, accountEnabledNe true]⟩)]
    KeyColumnQuals := [] }

/-- The predicates `display_name = 'Alice'` and `account_enabled <> true`. -/
def sampleAliceDisabled (columns : List String) : QueryData :=
  { Columns := columns
    Quals := [("display_name", ⟨"display_name", [⟨"display_name", "=", .StringValue "Alice"⟩]⟩),
              ("account_enabled", ⟨"account_enabled", [accountEnabledNe true]⟩)]
    KeyColumnQuals := [("display_name", .StringValue "Alice")] }

/-- The predicate list `display_name = 'Alice'`, `user_principal_name = 'alice@example.com'`. -/
def sampleNameThenUpn : List Qual :=
  [⟨"display_name", "=", .StringValue "Alice"⟩,
   ⟨"user_principal_name", "=", .StringValue "alice@example.com"⟩]

/-- Query data carrying `sampleNameThenUpn`. -/
def sampleNameThenUpnData : QueryData :=
  { Columns := ["id"]
    Quals := []
    KeyColumnQuals := [("display_name", .StringValue "Alice"),
                       ("user_principal_name", .StringValue "alice@example.com")] }

/-- The predicate list `display_name = 'Alice'`, `account_enabled <> true`, `id = 'u1'`. -/
def sampleThree : List Qual :=
  [⟨"display_name", "=", .StringValue "Alice"⟩, accountEnabledNe true,
   ⟨"id", "=", .StringValue "u1"⟩]

/-- Query data carrying `sampleThree`. -/
def sampleThreeData : QueryData :=
  { Columns := ["id"]
    Quals := [("account_enabled", ⟨"account_enabled", [accountEnabledNe true]⟩)]
    KeyColumnQuals := [("display_name", .StringValue "Alice"), ("id", .StringValue "u1")] }

/-- Three directory roles. -/
def role (n : String) : DirectoryRole :=
  { Id := some n, Description := none, DisplayName := some ("Role " ++ n),
    RoleTemplateId := none }

/-- A graph client whose directory roles endpoint answers every request with
the given response. -/
def clientReturning (response : DirectoryRoleCollectionResponse) : GraphClient :=
  { DirectoryRolesGet := fun _ => .ok response }

/-- A directory roles collection served in pages: the request returns the
first page, with a continuation link when further pages exist. -/
def pagedClient (pages : List (List DirectoryRole)) : GraphClient :=
  match pages with
  | [] => clientReturning { value := [], odataNextLink := none }
  | [page] => clientReturning { value := page, odataNextLink := none }
  | page :: _ :: _ =>
    clientReturning { value := page, odataNextLink := some "https://graph.microsoft.com/next" }

/-- Two users. -/
def user (n : String) : User :=
  { ID := some n, DisplayName := none, UserPrincipalName := none }

/-- A users client answering every query with the given users. -/
def usersClientReturning (users : List User) : UsersClient :=
  { List := fun _ => .ok users }

end azuread

open azuread

/-! ## Lemmas on the filter builder -/

theorem foldl_lookup_eq (m : List (String × QualValue)) (g : String → QualValue → String)
    (l : List String) (acc : List String) :
    l.foldl (fun filters qual =>
        match m.lookup qual with
        | some v => filters ++ [g qual v]
        | none => filters) acc
      = acc ++ l.filterMap (fun qual => (m.lookup qual).map (g qual)) := by
  induction l generalizing acc with
  | nil => simp
  | cons a l ih =>
    simp only [List.foldl_cons, List.filterMap_cons]
    cases h : m.lookup a with
    | none => simp [ih]
    | some c => simp [ih]

theorem buildQueryFilter_eq (m : List (String × QualValue)) :
    buildQueryFilter m =
      ((m.lookup "account_enabled").map
          (fun v => "accountEnabled" ++ " eq " ++ fmtBool v.GetBoolValue)).toList ++
        filterQuals.filterMap (fun qual =>
          (m.lookup qual).map (fun v => ToCamel qual ++ " eq '" ++ v.GetStringValue ++ "'")) := by
  unfold buildQueryFilter
  simp only []
  rw [foldl_lookup_eq m (fun qual v => ToCamel qual ++ " eq '" ++ v.GetStringValue ++ "'")]
  cases m.lookup "account_enabled" <;> simp

theorem appendAccountEnabledNe_eq (filter : List String) (qs : List Qual) :
    appendAccountEnabledNe filter qs =
      filter ++ ((qs.find? (fun q => q.Operator = "<>")).map (fun q =>
        if q.Value.GetBoolValue then "accountEnabled eq false"
        else "accountEnabled eq true")).toList := by
  induction qs with
  | nil => simp [appendAccountEnabledNe]
  | cons q rest ih =>
    unfold appendAccountEnabledNe
    by_cases h : q.Operator = "<>"
    · cases hb : q.Value.GetBoolValue <;> simp [h, hb, List.find?_cons]
    · simp [h, ih, List.find?_cons]

theorem listAdUsersClauses_eq (d : QueryData) :
    listAdUsersClauses d =
      buildQueryFilter d.KeyColumnQuals ++
        (((accountEnabledQuals d).find? (fun q => q.Operator = "<>")).map (fun q =>
          if q.Value.GetBoolValue then "accountEnabled eq false"
          else "accountEnabled eq true")).toList := by
  unfold listAdUsersClauses accountEnabledQuals
  cases d.Quals.lookup "account_enabled" with
  | none => simp
  | some kq => simp [appendAccountEnabledNe_eq]

/-- Without a non-empty raw filter the filter sent is the clause slice joined by `" and "`. -/
theorem filter_eq_join (d : QueryData)
    (h : ∀ v, d.KeyColumnQuals.lookup "filter" = some v → v.GetStringValue = "") :
    (listAdUsersInput d).Filter = stringsJoin (listAdUsersClauses d) " and " := by
  have hq : (match d.KeyColumnQuals.lookup "filter" with
      | some v => v.GetStringValue
      | none => "") = "" := by
    cases hl : d.KeyColumnQuals.lookup "filter" with
    | none => rfl
    | some v => exact h v hl
  unfold listAdUsersInput
  simp only [hq]
  cases hc : listAdUsersClauses d with
  | nil => simp [stringsJoin, String.intercalate]
  | cons c cs => simp

/-- Every clause of the slice is an `accountEnabled eq` clause or a quoted
equality on one of the five camel-cased string fields. -/
theorem clause_shape (d : QueryData) (c : String) (hc : c ∈ listAdUsersClauses d) :
    c = "accountEnabled eq true" ∨ c = "accountEnabled eq false" ∨
      ∃ field ∈ ["userPrincipalName", "userType", "id", "displayName", "surname"],
        ∃ s : String, c = field ++ " eq '" ++ s ++ "'" := by
  rw [listAdUsersClauses_eq, buildQueryFilter_eq] at hc
  rcases List.mem_append.1 hc with hc | hc
  · rcases List.mem_append.1 hc with hc | hc
    · rw [Option.mem_toList, Option.mem_def, Option.map_eq_some'] at hc
      obtain ⟨v, _, hv⟩ := hc
      cases hb : v.GetBoolValue
      · right; left; rw [← hv, hb]; decide
      · left; rw [← hv, hb]; decide
    · right; right
      obtain ⟨qual, hq, hv⟩ := List.mem_filterMap.1 hc
      rw [Option.map_eq_some'] at hv
      obtain ⟨v, _, hv⟩ := hv
      refine ⟨ToCamel qual, ?_, v.GetStringValue, hv.symm⟩
      simp only [filterQuals, List.mem_cons, List.mem_singleton, List.not_mem_nil, or_false] at hq
      rcases hq with h | h | h | h | h <;> subst h <;> decide
  · rw [Option.mem_toList, Option.mem_def, Option.map_eq_some'] at hc
    obtain ⟨q, _, hq⟩ := hc
    cases hb : q.Value.GetBoolValue
    · left; rw [← hq, hb]; rfl
    · right; left; rw [← hq, hb]; rfl

/-! ## The raw filter (C1) -/

/-- C1, as stated, fails: with the raw filter `filter = ''` and the predicate
`display_name = 'Alice'`, the filter sent is the derived clause
`displayName eq 'Alice'`, not the raw value. -/
theorem empty_raw_filter_not_verbatim :
    sampleEmptyRawFilter.KeyColumnQuals.lookup "filter" = some (.StringValue "") ∧
    (listAdUsersInput sampleEmptyRawFilter).Filter = "displayName eq 'Alice'" ∧
    (listAdUsersInput sampleEmptyRawFilter).Filter ≠ "" := by
  decide

/-- C1, amended: when an equality predicate on the reserved `filter` column is
present and its string value is not empty, the filter sent to the remote list
call is that value verbatim, whatever the other predicates are. -/
theorem raw_filter_verbatim (d : QueryData) (v : QualValue)
    (hraw : d.KeyColumnQuals.lookup "filter" = some v)
    (hne : v.GetStringValue ≠ "") :
    (listAdUsersInput d).Filter = v.GetStringValue := by
  unfold listAdUsersInput
  simp [hraw, hne]

/-- Witness of `raw_filter_verbatim`: a raw filter next to `display_name = 'Alice'`
and `account_enabled <> true`. -/
theorem raw_filter_verbatim_witness :
    (listAdUsersInput sampleRawFilter).Filter = "startswith(displayName,'A')" :=
  raw_filter_verbatim sampleRawFilter (.StringValue "startswith(displayName,'A')")
    (by decide) (by decide)

/-! ## The `<>` predicate on `account_enabled` (C3) -/

/-- C3, as stated, fails: with the predicates `account_enabled <> false` and
`account_enabled <> true`, in that order and without a raw filter, the second
predicate is present but the filter is `accountEnabled eq true` and has no
clause `accountEnabled eq false`. -/
theorem second_ne_predicate_ignored :
    sampleTwoNe.KeyColumnQuals.lookup "filter" = none ∧
    accountEnabledNe true ∈ accountEnabledQuals sampleTwoNe ∧
    listAdUsersClauses sampleTwoNe = ["accountEnabled eq true"] ∧
    "accountEnabled eq false" ∉ listAdUsersClauses sampleTwoNe ∧
    (listAdUsersInput sampleTwoNe).Filter = "accountEnabled eq true" := by
  decide

/-- C3, amended: without a raw filter, when the first `<>` qualifier on
`account_enabled` has value true the filter is the clauses joined by `" and "`
and they include `accountEnabled eq false`; when it has value false they
include `accountEnabled eq true`; and no clause begins with `accountEnabled ne`. -/
theorem account_enabled_ne_rewritten (d : QueryData) (q : Qual)
    (hraw : d.KeyColumnQuals.lookup "filter" = none)
    (hq : (accountEnabledQuals d).find? (fun q => q.Operator = "<>") = some q) :
    (listAdUsersInput d).Filter = stringsJoin (listAdUsersClauses d) " and " ∧
    (q.Value = .BoolValue true → "accountEnabled eq false" ∈ listAdUsersClauses d) ∧
    (q.Value = .BoolValue false → "accountEnabled eq true" ∈ listAdUsersClauses d) ∧
    ∀ c ∈ listAdUsersClauses d, ¬ ("accountEnabled ne".toList <+: c.toList) := by
  refine ⟨filter_eq_join d (fun v hv => by rw [hraw] at hv; cases hv), ?_, ?_, ?_⟩
  · intro hv
    rw [listAdUsersClauses_eq, hq]
    simp [hv, QualValue.GetBoolValue]
  · intro hv
    rw [listAdUsersClauses_eq, hq]
    simp [hv, QualValue.GetBoolValue]
  · intro c hc
    rcases clause_shape d c hc with h | h | ⟨field, hf, s, h⟩
    · subst h; decide
    · subst h; decide
    · subst h
      simp only [List.mem_cons, List.mem_singleton, List.not_mem_nil, or_false] at hf
      rcases hf with h | h | h | h | h <;> subst h <;> simp [String.toList]

/-- Witness of `account_enabled_ne_rewritten`: `display_name = 'Alice'` and
`account_enabled <> true`. -/
theorem account_enabled_ne_rewritten_witness :
    (listAdUsersInput (sampleAliceDisabled [])).Filter =
        stringsJoin (listAdUsersClauses (sampleAliceDisabled [])) " and " ∧
    ((accountEnabledNe true).Value = .BoolValue true →
        "accountEnabled eq false" ∈ listAdUsersClauses (sampleAliceDisabled [])) ∧
    ((accountEnabledNe true).Value = .BoolValue false →
        "accountEnabled eq true" ∈ listAdUsersClauses (sampleAliceDisabled [])) ∧
    ∀ c ∈ listAdUsersClauses (sampleAliceDisabled []),
        ¬ ("accountEnabled ne".toList <+: c.toList) :=
  account_enabled_ne_rewritten (sampleAliceDisabled []) (accountEnabledNe true)
    (by decide) (by decide)

/-! ## The scenario of C4 -/

/-- C4: for the predicates `display_name = 'Alice'` and `account_enabled <> true`
and nothing else, whatever columns are requested, the filter sent is exactly
`displayName eq 'Alice' and accountEnabled eq false`. -/
theorem alice_disabled_filter (columns : List String) :
    (listAdUsersInput (sampleAliceDisabled columns)).Filter =
      "displayName eq 'Alice' and accountEnabled eq false" := by
  have h : (listAdUsersInput (sampleAliceDisabled columns)).Filter =
      (listAdUsersInput (sampleAliceDisabled [])).Filter := rfl
  rw [h]
  decide

/-! ## The `memberOf` expansion (C10) -/

/-- C10: the query built by `listAdUsers` carries the `memberOf` expansion
selecting exactly `id` and `displayName` if and only if `member_of` is among
the requested columns, and its expansion is empty if and only if it is not;
the predicates play no part. -/
theorem member_of_expand_lazy (d : QueryData) :
    ((listAdUsersInput d).Expand =
        { Relationship := "memberOf", Select := ["id", "displayName"] } ↔
      "member_of" ∈ d.Columns) ∧
    ((listAdUsersInput d).Expand = { Relationship := "", Select := [] } ↔
      "member_of" ∉ d.Columns) := by
  unfold listAdUsersInput
  by_cases h : "member_of" ∈ d.Columns
  · simp [h]
  · simp [h]

/-! ## One clause per predicate (C2) -/

theorem lookup_mem {β : Type} (m : List (String × β)) (c : String) (v : β)
    (h : m.lookup c = some v) : (c, v) ∈ m := by
  induction m with
  | nil => simp at h
  | cons kv m ih =>
    obtain ⟨k, w⟩ := kv
    by_cases hk : c = k
    · subst hk
      simp [List.lookup] at h
      subst h
      exact List.mem_cons_self _ _
    · have hb : (c == k) = false := by simpa using hk
      simp [List.lookup, hb] at h
      exact List.mem_cons_of_mem _ (ih h)

/-- Under `Carries`, reading the equality map at a column gives the value of
the first equality predicate on that column. -/
theorem lookup_of_carries (d : QueryData) (ps : List Qual) (hc : Carries d ps) (c : String) :
    d.KeyColumnQuals.lookup c = (ps.find? (fun p => p.slot = (c, "="))).map Qual.Value := by
  obtain ⟨h1, h2, _⟩ := hc
  cases hf : ps.find? (fun p => p.slot = (c, "=")) with
  | none =>
    cases hl : d.KeyColumnQuals.lookup c with
    | none => rfl
    | some v =>
      have hmem := h2 _ (lookup_mem _ _ _ hl)
      have := List.find?_eq_none.1 hf _ hmem
      simp [Qual.slot] at this
  | some p =>
    have hp := List.find?_some hf
    have hmem := List.mem_of_find?_eq_some hf
    simp only [Qual.slot, decide_eq_true_eq, Prod.mk.injEq] at hp
    have := h1 p hmem hp.2
    rw [hp.1] at this
    simpa using this

/-- Under `Carries`, the first `<>` qualifier on `account_enabled` held by
`d.Quals` is the first predicate of the list in that slot. -/
theorem find_ne_of_carries (d : QueryData) (ps : List Qual) (hc : Carries d ps) :
    (accountEnabledQuals d).find? (fun q => q.Operator = "<>") =
      ps.find? (fun p => p.slot = ("account_enabled", "<>")) := by
  rw [hc.2.2, List.find?_filter]
  congr 1
  funext p
  simp [Qual.slot]

theorem clauseOf_eq_slot (p : Qual) (c : String) (hp : p.slot = (c, "="))
    (hc : c ≠ "account_enabled") :
    clauseOf p = ToCamel c ++ " eq '" ++ p.Value.GetStringValue ++ "'" := by
  simp only [Qual.slot, Prod.mk.injEq] at hp
  simp [clauseOf, hp.1, hc]

theorem clauseOf_account_enabled_eq (p : Qual) (hp : p.slot = ("account_enabled", "=")) :
    clauseOf p = "accountEnabled" ++ " eq " ++ fmtBool p.Value.GetBoolValue := by
  simp only [Qual.slot, Prod.mk.injEq] at hp
  have h : ("=" : String) ≠ "<>" := by decide
  simp only [clauseOf, hp.1, hp.2, h, if_true, if_false]
  rfl

theorem clauseOf_account_enabled_ne (p : Qual) (hp : p.slot = ("account_enabled", "<>")) :
    clauseOf p =
      if p.Value.GetBoolValue then "accountEnabled eq false" else "accountEnabled eq true" := by
  simp only [Qual.slot, Prod.mk.injEq] at hp
  simp only [clauseOf, hp.1, hp.2, if_true]
  cases p.Value.GetBoolValue <;> decide

/-- Under `Carries`, the clause slice of `listAdUsers` is the clause of each
predicate, taken slot by slot. -/
theorem clauses_of_carries (d : QueryData) (ps : List Qual) (hc : Carries d ps) :
    listAdUsersClauses d = (inSlotOrder ps).map clauseOf := by
  have hslots : pushableSlots =
      [("account_enabled", "=")] ++ filterQuals.map (fun c => (c, "=")) ++
        [("account_enabled", "<>")] := by decide
  rw [listAdUsersClauses_eq, buildQueryFilter_eq, inSlotOrder, hslots,
    List.filterMap_append, List.filterMap_append, List.map_append, List.map_append,
    find_ne_of_carries d ps hc]
  congr 1
  · congr 1
    · rw [lookup_of_carries d ps hc]
      cases hf : ps.find? (fun p => p.slot = ("account_enabled", "=")) with
      | none => simp [hf]
      | some p =>
        have hp := List.find?_some hf
        simp only [decide_eq_true_eq] at hp
        simp [hf, clauseOf_account_enabled_eq p hp]
    · rw [List.filterMap_map, List.map_filterMap]
      apply List.filterMap_congr
      intro c hmem
      have hne : c ≠ "account_enabled" := by
        intro h; subst h; revert hmem; decide
      rw [lookup_of_carries d ps hc]
      cases hf : ps.find? (fun p => p.slot = (c, "=")) with
      | none => simp [hf]
      | some p =>
        have hp := List.find?_some hf
        simp only [decide_eq_true_eq] at hp
        simp [hf, clauseOf_eq_slot p c hp hne]
  · cases hf : ps.find? (fun p => p.slot = ("account_enabled", "<>")) with
    | none => simp [hf]
    | some p =>
      have hp := List.find?_some hf
      simp only [decide_eq_true_eq] at hp
      simp [hf, clauseOf_account_enabled_ne p hp]

/-- With one predicate per slot, all of them pushable, arranging by slot only
reorders the list. -/
theorem inSlotOrder_perm (ps : List Qual) (hpush : ∀ p ∈ ps, Pushable p)
    (hnodup : (ps.map Qual.slot).Nodup) : (inSlotOrder ps).Perm ps := by
  have hinj := List.inj_on_of_nodup_map hnodup
  have hnd : (inSlotOrder ps).Nodup := by
    apply List.Nodup.filterMap _ (by decide : pushableSlots.Nodup)
    intro s s' p hs hs'
    have h1 := List.find?_some (Option.mem_def.1 hs)
    have h2 := List.find?_some (Option.mem_def.1 hs')
    simp only [decide_eq_true_eq] at h1 h2
    rw [← h1, ← h2]
  rw [List.perm_ext_iff_of_nodup hnd (List.Nodup.of_map _ hnodup)]
  intro p
  constructor
  · intro hp
    obtain ⟨s, _, hs⟩ := List.mem_filterMap.1 hp
    exact List.mem_of_find?_eq_some hs
  · intro hp
    apply List.mem_filterMap.2
    refine ⟨p.slot, hpush p hp, ?_⟩
    cases hf : ps.find? (fun q => q.slot = p.slot) with
    | none =>
      have := List.find?_eq_none.1 hf p hp
      simp at this
    | some q =>
      have hq := List.find?_some hf
      simp only [decide_eq_true_eq] at hq
      rw [hinj (List.mem_of_find?_eq_some hf) hp hq]

/-- C2, as stated, fails: the predicates `display_name = 'Alice'` and
`user_principal_name = 'alice@example.com'`, supplied in that order, are both
pushable and carried by the query data, but the filter built puts the
`userPrincipalName` clause first. -/
theorem clauses_not_in_supplied_order :
    Carries sampleNameThenUpnData sampleNameThenUpn ∧
    (∀ p ∈ sampleNameThenUpn, Pushable p) ∧
    specFilter sampleNameThenUpn =
      "displayName eq 'Alice' and userPrincipalName eq 'alice@example.com'" ∧
    (listAdUsersInput sampleNameThenUpnData).Filter =
      "userPrincipalName eq 'alice@example.com' and displayName eq 'Alice'" ∧
    (listAdUsersInput sampleNameThenUpnData).Filter ≠ specFilter sampleNameThenUpn := by
  decide

/-- C2, amended: for query data carrying a list of pushable predicates with at
most one predicate per column and operator, the filter built by `listAdUsers`
is one clause per predicate joined by `" and "`, the clauses being arranged in
the fixed order of `pushableSlots` (a reordering of the supplied list). -/
theorem filter_one_clause_per_predicate (d : QueryData) (ps : List Qual)
    (hc : Carries d ps) (hpush : ∀ p ∈ ps, Pushable p)
    (hnodup : (ps.map Qual.slot).Nodup) :
    (listAdUsersInput d).Filter = specFilter (inSlotOrder ps) ∧
    (inSlotOrder ps).Perm ps := by
  refine ⟨?_, inSlotOrder_perm ps hpush hnodup⟩
  have hraw : ∀ v, d.KeyColumnQuals.lookup "filter" = some v → v.GetStringValue = "" := by
    intro v hv
    have hmem := hc.2.1 _ (lookup_mem _ _ _ hv)
    have := hpush _ hmem
    revert this
    simp [Pushable, Qual.slot, pushableSlots]
  rw [filter_eq_join d hraw, clauses_of_carries d ps hc, specFilter]

/-- Witness of `filter_one_clause_per_predicate`: three predicates supplied as
`display_name`, `account_enabled <>`, `id`. -/
theorem filter_one_clause_per_predicate_witness :
    (listAdUsersInput sampleThreeData).Filter = specFilter (inSlotOrder sampleThree) ∧
    (inSlotOrder sampleThree).Perm sampleThree :=
  filter_one_clause_per_predicate sampleThreeData sampleThree
    (by decide) (by decide) (by decide)

/-! ## Streaming directory roles (C5, C9) -/

/-- With a budget `k ≥ 1` and at least `k` records, the loop streams the first
`k` records and leaves the budget at zero. -/
theorem streamDirectoryRoles_budget (roles : List DirectoryRole) (k : Nat)
    (st : Scan (Option String) ADDirectoryRoleInfo)
    (hk : 1 ≤ k) (hlen : k ≤ roles.length) (hst : st.rowsRemaining = k) :
    streamDirectoryRoles roles st =
      { rowsRemaining := 0
        log := st.log ++ (roles.take k).map (fun r => Event.row { DirectoryRoleable := r }) } := by
  induction roles generalizing st k with
  | nil => simp at hlen; omega
  | cons r rest ih =>
    unfold streamDirectoryRoles
    simp only [RowsRemaining, StreamListItem, hst]
    by_cases h1 : k = 1
    · subst h1
      simp
    · have hne : ¬ ((k : Int) - 1 = 0) := by omega
      rw [if_neg hne]
      obtain ⟨j, rfl⟩ : ∃ j, k = j + 1 := ⟨k - 1, by omega⟩
      have := ih j { rowsRemaining := (↑(j + 1) : Int) - 1,
                     log := st.log ++ [Event.row { DirectoryRoleable := r }] }
        (by omega) (by simpa using hlen) (by simp)
      rw [this]
      simp

theorem rowsOf_append {κ ρ : Type} (es fs : List (Event κ ρ)) :
    rowsOf (es ++ fs) = rowsOf es ++ rowsOf fs := by
  induction es with
  | nil => rfl
  | cons e es ih => cases e <;> simp [rowsOf, ih]

theorem rowsOf_map_row {κ ρ α : Type} (f : α → ρ) (l : List α) :
    rowsOf (l.map (fun a => (Event.row (f a) : Event κ ρ))) = l.map f := by
  induction l with
  | nil => rfl
  | cons a l ih => simp [rowsOf, ih]

/-- C5, as stated, fails at the row budget 0: with a response of one directory
role (so N = 1 ≥ K = 0) the role is handed to the sink, although the first 0
records of the response are no rows at all. -/
theorem zero_budget_still_emits :
    rowsOf (listAdDirectoryRoles id
        (.ok (clientReturning { value := [role "1"], odataNextLink := none }))
        (Scan.start 0)).1.log = [{ DirectoryRoleable := role "1" }] ∧
    rowsOf (listAdDirectoryRoles id
        (.ok (clientReturning { value := [role "1"], odataNextLink := none }))
        (Scan.start 0)).1.log ≠ ([role "1"].take 0).map ADDirectoryRoleInfo.mk := by
  decide

/-- C5, amended: for every row budget `K ≥ 1` and every successful response
holding at least `K` directory roles, `listAdDirectoryRoles` sends one request
(without filter), then hands the sink exactly the first `K` records of the
response in the response's order, and does nothing after the `K`-th row: the
budget is then zero and the function returns without error. -/
theorem listAdDirectoryRoles_first_K (getErrorObject : String → String)
    (client : GraphClient) (result : DirectoryRoleCollectionResponse) (K : Nat)
    (hget : client.DirectoryRolesGet none = .ok result)
    (hK : 1 ≤ K) (hN : K ≤ result.value.length) :
    listAdDirectoryRoles getErrorObject (.ok client) (Scan.start K) =
      ({ rowsRemaining := 0
         log := Event.fetch none ::
           (result.value.take K).map (fun r => Event.row { DirectoryRoleable := r }) },
       .nil) ∧
    rowsOf (listAdDirectoryRoles getErrorObject (.ok client) (Scan.start K)).1.log =
      (result.value.take K).map ADDirectoryRoleInfo.mk ∧
    fetchesOf (listAdDirectoryRoles getErrorObject (.ok client) (Scan.start K)).1.log =
      [none] := by
  have hrun : listAdDirectoryRoles getErrorObject (.ok client) (Scan.start K) =
      ({ rowsRemaining := 0
         log := Event.fetch none ::
           (result.value.take K).map (fun r => Event.row { DirectoryRoleable := r }) },
       .nil) := by
    unfold listAdDirectoryRoles
    simp only [hget]
    rw [streamDirectoryRoles_budget result.value K _ hK hN (by simp [Scan.request, Scan.start])]
    simp [Scan.request, Scan.start]
  refine ⟨hrun, ?_, ?_⟩
  · rw [hrun]
    simp only [rowsOf]
    exact rowsOf_map_row ADDirectoryRoleInfo.mk _
  · rw [hrun]
    simp only [fetchesOf]
    generalize result.value.take K = l
    induction l with
    | nil => rfl
    | cons a l ih => simpa [fetchesOf] using ih

/-- Witness of `listAdDirectoryRoles_first_K`: budget 2 and a response of three roles. -/
theorem listAdDirectoryRoles_first_K_witness :
    listAdDirectoryRoles id
        (.ok (clientReturning { value := [role "1", role "2", role "3"], odataNextLink := none }))
        (Scan.start (2 : Nat)) =
      ({ rowsRemaining := 0
         log := Event.fetch none ::
           ([role "1", role "2", role "3"].take 2).map
             (fun r => Event.row { DirectoryRoleable := r }) },
       .nil) ∧
    rowsOf (listAdDirectoryRoles id
        (.ok (clientReturning { value := [role "1", role "2", role "3"], odataNextLink := none }))
        (Scan.start (2 : Nat))).1.log =
      ([role "1", role "2", role "3"].take 2).map ADDirectoryRoleInfo.mk ∧
    fetchesOf (listAdDirectoryRoles id
        (.ok (clientReturning { value := [role "1", role "2", role "3"], odataNextLink := none }))
        (Scan.start (2 : Nat))).1.log = [none] :=
  listAdDirectoryRoles_first_K id
    (clientReturning { value := [role "1", role "2", role "3"], odataNextLink := none })
    { value := [role "1", role "2", role "3"], odataNextLink := none } 2
    rfl (by decide) (by decide)

/-- C9, evaluated on the code: for a collection served as two pages, the first
carrying a continuation link, and a budget of 100 rows, `listAdDirectoryRoles`
sends a single request and hands the sink the records of the first page only;
the record of the second page never reaches the sink. -/
theorem second_page_never_fetched :
    (pagedClient [[role "1", role "2"], [role "3"]]).DirectoryRolesGet none =
      .ok { value := [role "1", role "2"],
            odataNextLink := some "https://graph.microsoft.com/next" } ∧
    (listAdDirectoryRoles id (.ok (pagedClient [[role "1", role "2"], [role "3"]]))
        (Scan.start 100)) =
      ({ rowsRemaining := 98
         log := [Event.fetch none, Event.row { DirectoryRoleable := role "1" },
                 Event.row { DirectoryRoleable := role "2" }] }, .nil) ∧
    rowsOf (listAdDirectoryRoles id (.ok (pagedClient [[role "1", role "2"], [role "3"]]))
        (Scan.start 100)).1.log ≠
      ([[role "1", role "2"], [role "3"]].flatten).map ADDirectoryRoleInfo.mk := by
  refine ⟨rfl, ?_, ?_⟩ <;> decide

/-! ## Streaming users (C6) -/

theorem foldl_StreamListItem_log {κ ρ : Type} (rows : List ρ) (st : Scan κ ρ) :
    (rows.foldl StreamListItem st).log = st.log ++ rows.map Event.row := by
  induction rows generalizing st with
  | nil => simp
  | cons r rows ih => simp [ih, StreamListItem]

theorem fetchesOf_append {κ ρ : Type} (es fs : List (Event κ ρ)) :
    fetchesOf (es ++ fs) = fetchesOf es ++ fetchesOf fs := by
  induction es with
  | nil => rfl
  | cons e es ih => cases e <;> simp [fetchesOf, ih]

theorem fetchesOf_map_row {κ ρ : Type} (rows : List ρ) :
    fetchesOf (rows.map (Event.row : ρ → Event κ ρ)) = [] := by
  induction rows with
  | nil => rfl
  | cons r rows ih => simpa [fetchesOf] using ih

/-- The one request `listAdUsers` sends to the remote list call is the query
`listAdUsersInput d`. -/
theorem listAdUsers_sends_input (client : UsersClient) (d : QueryData) (budget : Int) :
    fetchesOf (listAdUsers (.ok client) d (Scan.start budget)).1.log = [listAdUsersInput d] := by
  unfold listAdUsers
  simp only []
  cases client.List (listAdUsersInput d) with
  | error err => simp [Scan.request, Scan.start, fetchesOf]
  | ok users =>
    simp [foldl_StreamListItem_log, fetchesOf_append, fetchesOf_map_row, Scan.request,
      Scan.start, fetchesOf]

/-- Whatever the row budget, `listAdUsers` hands every user returned by the
remote call to the sink. -/
theorem listAdUsers_streams_all (client : UsersClient) (d : QueryData) (budget : Int)
    (users : List User) (hlist : client.List (listAdUsersInput d) = .ok users) :
    rowsOf (listAdUsers (.ok client) d (Scan.start budget)).1.log = users := by
  unfold listAdUsers
  simp only [hlist]
  rw [foldl_StreamListItem_log, rowsOf_append]
  have h := @rowsOf_map_row Query User User (fun u => u) users
  simp only [List.map_id_fun', id_eq] at h
  simp [Scan.request, Scan.start, rowsOf, h]

/-- C6, evaluated on the code: with three users returned and a row budget of 1,
`listAdUsers` hands all three users to the sink; the budget is never read and
ends at -2. -/
theorem listAdUsers_ignores_budget :
    (listAdUsers (.ok (usersClientReturning [user "1", user "2", user "3"]))
        (sampleAliceDisabled []) (Scan.start 1)).1.rowsRemaining = -2 ∧
    rowsOf (listAdUsers (.ok (usersClientReturning [user "1", user "2", user "3"]))
        (sampleAliceDisabled []) (Scan.start 1)).1.log = [user "1", user "2", user "3"] ∧
    (rowsOf (listAdUsers (.ok (usersClientReturning [user "1", user "2", user "3"]))
        (sampleAliceDisabled []) (Scan.start 1)).1.log).length ≠ 1 := by
  decide

/-! ## Get by identity (C7, C8) -/

/-- For every non-empty identity value, the one request `getAdDirectoryRole`
sends carries the value itself as filter. -/
theorem getAdDirectoryRole_request (getErrorObject : String → String) (client : GraphClient)
    (v : String) (budget : Int) (hv : v ≠ "") :
    fetchesOf (getAdDirectoryRole getErrorObject (.ok client) [("id", .StringValue v)]
      (Scan.start budget)).1.log = [some v] := by
  unfold getAdDirectoryRole
  simp only [List.lookup, beq_self_eq_true, QualValue.GetStringValue, hv, if_false]
  cases client.DirectoryRolesGet (some v) with
  | error err => simp [Scan.request, Scan.start, fetchesOf]
  | ok r =>
    obtain ⟨value, next⟩ := r
    cases value <;> simp [Scan.request, Scan.start, fetchesOf]

/-- For every non-empty identity value, an empty collection from the remote
call makes `getAdDirectoryRole` fail on indexing the empty slice. -/
theorem getAdDirectoryRole_empty (getErrorObject : String → String) (client : GraphClient)
    (v : String) (next : Option String) (budget : Int) (hv : v ≠ "")
    (hget : client.DirectoryRolesGet (some v) = .ok { value := [], odataNextLink := next }) :
    (getAdDirectoryRole getErrorObject (.ok client) [("id", .StringValue v)]
      (Scan.start budget)).2 = .indexOutOfRange := by
  unfold getAdDirectoryRole
  simp [List.lookup, QualValue.GetStringValue, hv, hget]

/-- C7, evaluated on the code: for the identity `role-1`, when the remote call
succeeds with an empty collection, `getAdDirectoryRole` fails on taking the
first record of the empty slice; it does not report an absent result. -/
theorem getAdDirectoryRole_empty_collection :
    getAdDirectoryRole id (.ok (clientReturning { value := [], odataNextLink := none }))
        [("id", .StringValue "role-1")] (Scan.start 1) =
      ({ rowsRemaining := 1, log := [Event.fetch (some "role-1")] }, .indexOutOfRange) ∧
    (getAdDirectoryRole id (.ok (clientReturning { value := [], odataNextLink := none }))
        [("id", .StringValue "role-1")] (Scan.start 1)).2 ≠ .nil := by
  decide

/-- C8, evaluated on the code: for the identity `role-1`, the filter that
`getAdDirectoryRole` sends to the directory roles endpoint is the bare value
`role-1`, not the equality clause `id eq 'role-1'`. -/
theorem getAdDirectoryRole_sends_bare_id :
    fetchesOf (getAdDirectoryRole id
        (.ok (clientReturning { value := [role "role-1"], odataNextLink := none }))
        [("id", .StringValue "role-1")] (Scan.start 1)).1.log = [some "role-1"] ∧
    fetchesOf (getAdDirectoryRole id
        (.ok (clientReturning { value := [role "role-1"], odataNextLink := none }))
        [("id", .StringValue "role-1")] (Scan.start 1)).1.log ≠ [some "id eq 'role-1'"] := by
  decide
